import Mathlib

/-!
Shallow embedding of `esi_util.py` (class `ESIDataWrapper`): the entity
catalog, the spreadsheet/CSV cache pipeline (`_fetch_esi_tables`,
`_import_esi_tables_from_xlsx`, `_load_esi_tables_from_csv`,
`_create_esi_csv_tables`), the ranking engine (`get_latest_rankings`) and
the history engine (`get_historical_values`).

Modelling conventions:
* Missing/NaN float cells are `none : Option ℚ`; present floats are `some q`.
  Python float comparison `x < y` with NaN operands is false, which `evLt`
  reproduces.
* `datetime.now()` is passed in explicitly as the `now : Date` argument.
* The filesystem is a map from entity code to the optional contents of its
  `<code>_esi.csv` cache file; the source spreadsheet is a map from a
  `usecols` column-selector string to the table `pd.read_excel` produces
  for it.  `sys.exit(msg)` is `Except.error msg`.
* `sorted(..., key=lambda x: x[1], reverse=True)` is modelled by CPython's
  exact list-sort algorithm for lists shorter than 64 elements (the ranking
  lists have 16): find the initial ascending / strictly-descending run,
  reverse a descending run, then binary-insert the remaining elements;
  `reverse=True` reverses the list before and after an ascending sort.
* `esi_tables[ec][col]` with a column label absent from the table raises
  an uncaught pandas `KeyError`, modelled as `Except.error`.  Positional
  access `row[i]` on a row shorter than its column list is modelled as a
  missing value; the real tables always have the 6 catalog columns per
  entity.
-/

namespace EsiUtil

/-- A monthly period (pandas `Period` with freq `M`). -/
structure Period where
  year : Nat
  month : Nat
deriving DecidableEq, Repr

/-- A calendar date (the `datetime` values indexing the raw tables). -/
structure Date where
  year : Nat
  month : Nat
  day : Nat
deriving DecidableEq, Repr

/-- `DatetimeIndex.to_period(freq='M')` applied to one date: drop the day. -/
def Date.toPeriod (d : Date) : Period := ⟨d.year, d.month⟩

/-- Boolean order on periods (year, then month). -/
def Period.leB (a b : Period) : Bool :=
  decide (a.year < b.year) || (decide (a.year = b.year) && decide (a.month ≤ b.month))

/-- Strict order on periods, as a proposition. -/
def Period.ltP (a b : Period) : Prop :=
  a.year < b.year ∨ (a.year = b.year ∧ a.month < b.month)

instance (a b : Period) : Decidable (a.ltP b) :=
  inferInstanceAs
    (Decidable (a.year < b.year ∨ (a.year = b.year ∧ a.month < b.month)))

instance : IsTrans Period Period.ltP := by
  constructor
  intro a b c hab hbc
  unfold Period.ltP at *
  omega

/-- A float cell: `none` is NaN/missing. -/
abbrev EV := Option ℚ

/-- Python `<` on float cells: any comparison involving NaN is false. -/
def evLt : EV → EV → Bool
  | some a, some b => decide (a < b)
  | _, _ => false

/-- The comparison used by `sorted(values.items(), key=lambda x: x[1], ...)`:
compare `(label, value)` pairs by value only. -/
def evLtPair (a b : String × EV) : Bool := evLt a.2 b.2

/-! ## Entity catalog (`ESIDataWrapper` class constants) -/

/-- `ESIDataWrapper.ENTITY_CODES`. -/
def ENTITY_CODES : List String :=
  ["eu", "ea", "at", "be", "dk", "de", "el", "es", "fr", "it", "nl", "pl",
   "pt", "fi", "se", "uk"]

/-- `ESIDataWrapper.ESI_ENTITIES` (a Python dict; association list in
insertion order, which is the iteration order of `.items()`/`.keys()`). -/
def ESI_ENTITIES : List (String × String) :=
  [("eu", "Europe"), ("ea", "Euro Area"), ("at", "Austria"),
   ("be", "Belgium"), ("dk", "Denmark"), ("de", "Germany"),
   ("el", "Greece"), ("es", "Spain"), ("fr", "France"), ("it", "Italy"),
   ("nl", "Netherlands"), ("pl", "Poland"), ("pt", "Portugal"),
   ("fi", "Finland"), ("se", "Sweden"), ("uk", "United Kingdom")]

/-- `ESIDataWrapper.ENTITY_COLS` (dict, insertion order). -/
def ENTITY_COLS : List (String × String) :=
  [("eu", "A,C:H"), ("ea", "A,K:P"), ("at", "A,FO:FT"), ("be", "A,S:X"),
   ("dk", "A,AQ:AV"), ("de", "A,AY:BD"), ("el", "A,BW:CB"),
   ("es", "A,CE:CJ"), ("fr", "A,CM:CR"), ("it", "A,DC:DH"),
   ("nl", "A,FG:FL"), ("pl", "A,FW:GB"), ("pt", "A,GE:GJ"),
   ("fi", "A,HK:HP"), ("se", "A,HS:HX"), ("uk", "A,IA:IF")]

/-- `ESIDataWrapper.ESI_COMPONENTS`. -/
def ESI_COMPONENTS : List String :=
  [".INDU", ".SERV", ".CONS", ".RETA", ".BUIL", ".ESI"]

/-! ## Tables -/

/-- A date-indexed per-entity table, as produced by `pd.read_excel` /
`pd.read_csv`: column headers plus one row of float cells per date. -/
structure DTable where
  cols : List String
  rows : List (Date × List EV)
deriving DecidableEq, Repr

/-- A period-indexed table (after `index.to_period(freq='M')`). -/
structure PTable where
  cols : List String
  rows : List (Period × List EV)
deriving DecidableEq, Repr

/-- `table.index = table.index.to_period(freq='M')`. -/
def DTable.toPeriodIndex (t : DTable) : PTable :=
  ⟨t.cols, t.rows.map fun r => (r.1.toPeriod, r.2)⟩

/-! ## CSV serialization (`to_csv` / `read_csv`)

A CSV file is modelled as its lines of cells, each cell a list of
characters.  Dates are written `YYYY-MM-DD`; floats are written as exact
decimal expansions (every IEEE double is a finite decimal, and `repr` /
`read_csv` round-trip it); NaN is written as the empty cell. -/

/-- A cell of a CSV file. -/
abbrev Str := List Char

/-- A CSV file: one list of cells per line (header line first). -/
abbrev Csv := List (List Str)

/-- The character for a decimal digit. -/
def digitChar (d : Nat) : Char :=
  match d with
  | 0 => '0' | 1 => '1' | 2 => '2' | 3 => '3' | 4 => '4'
  | 5 => '5' | 6 => '6' | 7 => '7' | 8 => '8' | _ => '9'

/-- The value of a decimal digit character. -/
def charVal (c : Char) : Nat := c.toNat - 48

/-- Decimal representation of a natural number. -/
def natToChars (n : Nat) : Str :=
  if n = 0 then ['0'] else ((Nat.digits 10 n).map digitChar).reverse

/-- Parse a decimal digit string. -/
def charsToNat (cs : Str) : Nat :=
  Nat.ofDigits 10 ((cs.map charVal).reverse)

/-- Left-pad a digit string with zeros to width `k`. -/
def padZ (k : Nat) (cs : Str) : Str :=
  List.replicate (k - cs.length) '0' ++ cs

/-- `to_csv` rendering of one date of a `DatetimeIndex`. -/
def encDate (d : Date) : Str :=
  padZ 4 (natToChars d.year) ++ '-' :: padZ 2 (natToChars d.month)
    ++ '-' :: padZ 2 (natToChars d.day)

/-- Split a character list on a separator character. -/
def splitC (sep : Char) : Str → List Str
  | [] => [[]]
  | c :: t =>
    let r := splitC sep t
    if c = sep then [] :: r
    else
      match r with
      | [] => [[c]]
      | h :: t2 => (c :: h) :: t2

/-- `read_csv(..., parse_dates=[0])` parsing of one date cell. -/
def decDate (cs : Str) : Date :=
  match splitC '-' cs with
  | [y, m, d] => ⟨charsToNat y, charsToNat m, charsToNat d⟩
  | _ => ⟨0, 0, 0⟩

/-- `to_csv` rendering of one float cell: the exact decimal expansion
`intpart.fracpart` with sign, or the empty cell for NaN.  For a rational
that is not a finite decimal (impossible for an IEEE double) the digits
after the point are not exact. -/
def encEV : EV → Str
  | none => []
  | some q =>
    let k := q.den
    let m : Int := q.num * ((10 : Int) ^ k / (q.den : Int))
    let a := m.natAbs
    (if m < 0 then ['-'] else []) ++ natToChars (a / 10 ^ k)
      ++ '.' :: padZ k (natToChars (a % 10 ^ k))

/-- `read_csv` parsing of one float cell. -/
def decEV (cs : Str) : EV :=
  if cs = [] then none
  else
    let neg := cs.headD '0' == '-'
    let body := if neg then cs.tail else cs
    match splitC '.' body with
    | [ip] => some ((if neg then (-1 : ℚ) else 1) * (charsToNat ip : ℚ))
    | [ip, fp] =>
      some ((if neg then (-1 : ℚ) else 1)
        * ((charsToNat ip : ℚ) + (charsToNat fp : ℚ) / 10 ^ fp.length))
    | _ => none

/-- `DataFrame.to_csv`: header line (empty index-name cell then the column
headers), then one line per row (date cell then the float cells). -/
def dtableToCsv (t : DTable) : Csv :=
  ([] :: t.cols.map String.toList)
    :: t.rows.map fun r => encDate r.1 :: r.2.map encEV

/-- `pd.read_csv(..., index_col=0, parse_dates=[0])` of a cache file. -/
def csvToDTable (c : Csv) : DTable :=
  match c with
  | [] => ⟨[], []⟩
  | hdr :: body =>
    ⟨hdr.tail.map fun s => String.mk s,
     body.map fun row =>
       match row with
       | [] => (⟨0, 0, 0⟩, [])
       | d :: vs => (decDate d, vs.map decEV)⟩

/-! ## The environment and the cache pipeline -/

/-- The external world of one invocation: the per-entity cache files that
exist on disk, and the source spreadsheet viewed through `pd.read_excel`
(one resulting table per `usecols` column-selector string, always read with
`header=0, index_col=0`). -/
structure Env where
  cache : String → Option Csv
  xlsx : String → DTable

/-- One logged `pd.read_excel` call: the `usecols` selector and the fixed
`header` / `index_col` arguments. -/
structure ReadXlsxCall where
  usecols : String
  headerRow : Nat
  indexCol : Nat
deriving DecidableEq, Repr

/-- `_import_esi_tables_from_xlsx`: one spreadsheet read per entry of
`ENTITY_COLS`; also returns the log of reads performed. -/
def importEsiTablesFromXlsx (env : Env) :
    (String → DTable) × List ReadXlsxCall :=
  (fun ec => env.xlsx ((ENTITY_COLS.lookup ec).getD ""),
   ENTITY_COLS.map fun p => ⟨p.2, 0, 0⟩)

/-- `_create_esi_csv_tables`: write every entity's table to its cache file. -/
def createEsiCsvTables (tabs : String → DTable) (cache : String → Option Csv) :
    String → Option Csv :=
  fun ec => if ec ∈ ENTITY_CODES then some (dtableToCsv (tabs ec)) else cache ec

/-- `_load_esi_tables_from_csv`: read every entity's cache file. -/
def loadEsiTablesFromCsv (cache : String → Option Csv) : String → DTable :=
  fun ec => csvToDTable ((cache ec).getD [])

/-- `we_have_csvs`: every entity's cache file exists. -/
def weHaveCsvs (env : Env) : Bool :=
  ENTITY_CODES.all fun ec => (env.cache ec).isSome

/-- The result of `_fetch_esi_tables`: the period-indexed tables, the cache
files on disk afterwards, and the spreadsheet reads performed. -/
structure FetchOut where
  tables : String → PTable
  newCache : String → Option Csv
  xlsxCalls : List ReadXlsxCall

/-- `_fetch_esi_tables`. -/
def fetchEsiTables (env : Env) : FetchOut :=
  if weHaveCsvs env then
    { tables := fun ec => (loadEsiTablesFromCsv env.cache ec).toPeriodIndex
      newCache := env.cache
      xlsxCalls := [] }
  else
    let imp := importEsiTablesFromXlsx env
    { tables := fun ec => (imp.1 ec).toPeriodIndex
      newCache := createEsiCsvTables imp.1 env.cache
      xlsxCalls := imp.2 }

/-! ## CPython `sorted` for short lists

`sorted(l, key=..., reverse=True)` for `len(l) < 64`: find the initial run
(`count_run`), reverse it if strictly descending, then binary-insert every
remaining element (`binarysort`); `reverse=True` reverses the list before
and after sorting ascending. -/

/-- The binary search of `binarysort`: find the insertion point of `pivot`
in `a` between `l` and `r`.  `fuel ≥ r - l` makes it total; each step
shrinks `r - l`. -/
def bins (lt : α → α → Bool) (pivot : α) (a : List α) :
    Nat → Nat → Nat → Nat
  | 0, l, _ => l
  | fuel + 1, l, r =>
    if l < r then
      if lt pivot (a.getD (l + (r - l) / 2) pivot) then
        bins lt pivot a fuel l (l + (r - l) / 2)
      else bins lt pivot a fuel (l + (r - l) / 2 + 1) r
    else l

/-- Insert an element at a position (append at the end when out of range). -/
def insertAt : Nat → α → List α → List α
  | 0, x, l => x :: l
  | _ + 1, x, [] => [x]
  | n + 1, x, a :: t => a :: insertAt n x t

/-- `binarysort`: binary-insert each remaining element into the sorted
prefix `acc`. -/
def binsort (lt : α → α → Bool) (acc : List α) : List α → List α
  | [] => acc
  | x :: rest =>
    binsort lt (insertAt (bins lt x acc acc.length 0 acc.length) x acc) rest

/-- `count_run`, ascending case: extend while not `cur < prev`. -/
def countAsc (lt : α → α → Bool) (prev : α) : List α → List α × List α
  | [] => ([], [])
  | x :: t =>
    if lt x prev then ([], x :: t)
    else
      let r := countAsc lt x t
      (x :: r.1, r.2)

/-- `count_run`, strictly-descending case: extend while `cur < prev`. -/
def countDesc (lt : α → α → Bool) (prev : α) : List α → List α × List α
  | [] => ([], [])
  | x :: t =>
    if lt x prev then
      let r := countDesc lt x t
      (x :: r.1, r.2)
    else ([], x :: t)

/-- `count_run` plus the reversal of a descending run. -/
def initialRun (lt : α → α → Bool) : List α → List α × List α
  | [] => ([], [])
  | [a] => ([a], [])
  | a :: b :: t =>
    if lt b a then
      let r := countDesc lt b t
      ((a :: b :: r.1).reverse, r.2)
    else
      let r := countAsc lt b t
      (a :: b :: r.1, r.2)

/-- CPython's ascending list sort for lists shorter than 64 elements. -/
def pySortAsc (lt : α → α → Bool) (l : List α) : List α :=
  let ir := initialRun lt l
  binsort lt ir.1 ir.2

/-- CPython's `sorted(l, reverse=rev)` (comparison `lt`, already composed
with the `key`), exact for lists shorter than 64 elements. -/
def pySorted (lt : α → α → Bool) (l : List α) (rev : Bool) : List α :=
  if rev then (pySortAsc lt l.reverse).reverse else pySortAsc lt l

/-! ## Ranking engine (`get_latest_rankings`) -/

/-- `relativedelta(months=-1)` applied to `now`, projected to its month. -/
def prevMonthPeriod (now : Date) : Period :=
  if now.month = 1 then ⟨now.year - 1, 12⟩ else ⟨now.year, now.month - 1⟩

/-- The one- or two-month lookup window `[start_date, end_date]`. -/
def rankingWindow (now : Date) (dateArg : Option Period) : Period × Period :=
  match dateArg with
  | none => (prevMonthPeriod now, ⟨now.year, now.month⟩)
  | some d => (d, d)

/-- `esi_tables[ec][start_date:end_date]`: label slicing on a monthly
`PeriodIndex` keeps the rows whose period lies in the inclusive window. -/
def windowSlice (t : PTable) (s e : Period) : List (Period × List EV) :=
  t.rows.filter fun r => s.leB r.1 && r.1.leB e

/-- The `latest_values` loop: for each entity code, the values of the last
in-window row; `sys.exit('Date given is out of range')` on the first entity
whose slice is empty. -/
def latestValuesFor (tables : String → PTable) (s e : Period) :
    List String → Except String (List (String × List EV))
  | [] => .ok []
  | ec :: rest =>
    match (windowSlice (tables ec) s e).getLast? with
    | none => .error "Date given is out of range"
    | some row => (latestValuesFor tables s e rest).map fun lv => (ec, row.2) :: lv

/-- The unsorted per-component ranking: `(display name, value)` pairs in
entity-catalog insertion order, taking component `idx` of each entity's
latest row. -/
def rankingInput (lv : List (String × List EV)) (idx : Nat) :
    List (String × EV) :=
  ESI_ENTITIES.map fun p => (p.2, ((lv.lookup p.1).getD []).getD idx none)

/-- `sorted(values.items(), key=lambda x: x[1], reverse=True)`. -/
def rankingFor (lv : List (String × List EV)) (idx : Nat) :
    List (String × EV) :=
  pySorted evLtPair (rankingInput lv idx) true

/-- `get_latest_rankings(date)`.  Returns the rankings (or the fatal
message), the cache files on disk afterwards, and the spreadsheet reads
performed. -/
def get_latest_rankings (env : Env) (now : Date) (dateArg : Option Period) :
    Except String (List (String × List (String × EV)))
      × (String → Option Csv) × List ReadXlsxCall :=
  let w := rankingWindow now dateArg
  let f := fetchEsiTables env
  match latestValuesFor f.tables w.1 w.2 (ESI_ENTITIES.map Prod.fst) with
  | .error m => (.error m, f.newCache, f.xlsxCalls)
  | .ok lv =>
    (.ok [("industrial_confidence", rankingFor lv 0),
          ("services_confidence", rankingFor lv 1),
          ("consumer_confidence", rankingFor lv 2),
          ("retail_confidence", rankingFor lv 3),
          ("construction_confidence", rankingFor lv 4),
          ("esi", rankingFor lv 5)],
     f.newCache, f.xlsxCalls)

/-! ## History engine (`get_historical_values`) -/

/-- ASCII uppercase of one character (Python `str.upper` on the catalog's
lowercase codes). -/
def charUpper (c : Char) : Char :=
  match c with
  | 'a' => 'A' | 'b' => 'B' | 'c' => 'C' | 'd' => 'D' | 'e' => 'E'
  | 'f' => 'F' | 'g' => 'G' | 'h' => 'H' | 'i' => 'I' | 'j' => 'J'
  | 'k' => 'K' | 'l' => 'L' | 'm' => 'M' | 'n' => 'N' | 'o' => 'O'
  | 'p' => 'P' | 'q' => 'Q' | 'r' => 'R' | 's' => 'S' | 't' => 'T'
  | 'u' => 'U' | 'v' => 'V' | 'w' => 'W' | 'x' => 'X' | 'y' => 'Y'
  | 'z' => 'Z' | c => c

/-- Python `ec.upper()`. -/
def upperStr (s : String) : String := String.mk (s.toList.map charUpper)

/-- `Series.tail(n)` / `DataFrame.tail(n)`: the last `n` entries. -/
def tailN (n : Nat) (l : List α) : List α := l.drop (l.length - n)

/-- The result of `get_historical_values`: `{'countries': ..., 'dates': ...}`. -/
structure HistoryOut where
  countries : List (String × List EV)
  dates : List Period
deriving DecidableEq, Repr

/-- The per-entity loop of `get_historical_values`:
`esi_tables[ec][col].tail(months).tolist()` for each entity code, where
`esi_tables[ec][col]` raises an uncaught pandas `KeyError` when the column
label is absent from that entity's table. -/
def historySeries (tables : String → PTable) (comp : String) (months : Nat) :
    List String → Except String (List (String × List EV))
  | [] => .ok []
  | ec :: rest =>
    if (upperStr ec ++ comp) ∈ (tables ec).cols then
      (historySeries tables comp months rest).map fun l =>
        (ec, tailN months ((tables ec).rows.map fun r =>
          r.2.getD ((tables ec).cols.indexOf (upperStr ec ++ comp)) none)) :: l
    else .error ("KeyError: " ++ (upperStr ec ++ comp))

/-- `get_historical_values(esi_component, months)`.  The `dates` axis is
computed after the per-entity loop, so a `KeyError` in the loop aborts the
whole call. -/
def get_historical_values (env : Env) (esi_component : String)
    (months : Nat) : Except String HistoryOut :=
  let comp := if esi_component ∈ ESI_COMPONENTS then esi_component else ".ESI"
  let f := fetchEsiTables env
  (historySeries f.tables comp months ENTITY_CODES).map fun cs =>
    { countries := cs
      dates := tailN months
        ((f.tables (ENTITY_CODES.headD "")).rows.map Prod.fst) }

/-! ## Derived definitions used by the verification -/

/-- Adjacent-pair condition of an ascending sort: whenever both values are
non-missing, the left one is at most the right one. -/
def ascOk (a b : String × EV) : Prop :=
  ∀ x y, a.2 = some x → b.2 = some y → x ≤ y

/-- Adjacent-pair condition of a descending ranking: whenever both values
are non-missing, the left one is at least the right one. -/
def descOk (a b : String × EV) : Prop :=
  ∀ x y, a.2 = some x → b.2 = some y → y ≤ x

/-- NaN test on a `(label, value)` pair. -/
def isNanP (p : String × EV) : Bool := p.2.isNone

/-- Linearized month number of a period. -/
def monthCode (p : Period) : Nat := p.year * 12 + p.month

/-- A finite-decimal cell: the denominator divides a power of ten.  Every
IEEE-754 double is of this form (its denominator is a power of two). -/
def FinDecEV : EV → Prop
  | none => True
  | some q => q.den ∣ 10 ^ q.den

instance (v : EV) : Decidable (FinDecEV v) :=
  match v with
  | none => isTrue trivial
  | some q => inferInstanceAs (Decidable (q.den ∣ 10 ^ q.den))

/-- Every cell of the table is a finite decimal. -/
def FinDecTable (t : DTable) : Prop :=
  ∀ r ∈ t.rows, ∀ v ∈ r.2, FinDecEV v

instance (t : DTable) : Decidable (FinDecTable t) :=
  inferInstanceAs (Decidable (∀ r ∈ t.rows, ∀ v ∈ r.2, FinDecEV v))

/-! ## Concrete instances used to exercise the theorems -/

/-- A one-row table whose six component values are 1..6. -/
def tblW : DTable :=
  ⟨["EU.INDU", "EU.SERV", "EU.CONS", "EU.RETA", "EU.BUIL", "EU.ESI"],
   [(⟨2020, 9, 30⟩, [some 1, some 2, some 3, some 4, some 5, some 6])]⟩

/-- An environment with no cache files, every spreadsheet read giving
`tblW`. -/
def envW : Env := ⟨fun _ => none, fun _ => tblW⟩

/-- A two-row table (periods 2020-08 and 2020-09). -/
def tblW2 : DTable :=
  ⟨["EU.INDU", "EU.SERV", "EU.CONS", "EU.RETA", "EU.BUIL", "EU.ESI"],
   [(⟨2020, 8, 31⟩, [some 7, some 7, some 7, some 7, some 7, some 7]),
    (⟨2020, 9, 30⟩, [some 1, some 2, some 3, some 4, some 5, some 6])]⟩

/-- An environment where the first catalog entity's table has two rows and
every other entity's table has one row. -/
def envW2 : Env :=
  ⟨fun _ => none, fun s => if s = "A,C:H" then tblW2 else tblW⟩

/-- A table with two dates inside the same calendar month. -/
def tblDup : DTable :=
  ⟨["EU.INDU", "EU.SERV", "EU.CONS", "EU.RETA", "EU.BUIL", "EU.ESI"],
   [(⟨2020, 1, 5⟩, [some 1, some 2, some 3, some 4, some 5, some 6]),
    (⟨2020, 1, 20⟩, [some 7, some 7, some 7, some 7, some 7, some 7])]⟩

/-- An environment whose imported tables contain duplicate monthly periods. -/
def envDup : Env := ⟨fun _ => none, fun _ => tblDup⟩

/-- All 16 display names paired with one constant value, in catalog order. -/
def allLabelsW (v : EV) : List (String × EV) :=
  ESI_ENTITIES.map fun p => (p.2, v)

/-- The rankings produced for `envW` (all entities share one table, so each
component's ranking keeps catalog order). -/
def rankingsW : List (String × List (String × EV)) :=
  [("industrial_confidence", allLabelsW (some 1)),
   ("services_confidence", allLabelsW (some 2)),
   ("consumer_confidence", allLabelsW (some 3)),
   ("retail_confidence", allLabelsW (some 4)),
   ("construction_confidence", allLabelsW (some 5)),
   ("esi", allLabelsW (some 6))]

/-- A one-row table carrying the entity's own six properly-prefixed column
headers (as each entity's block of the real spreadsheet does). -/
def tblC (ec : String) : DTable :=
  ⟨[upperStr ec ++ ".INDU", upperStr ec ++ ".SERV", upperStr ec ++ ".CONS",
    upperStr ec ++ ".RETA", upperStr ec ++ ".BUIL", upperStr ec ++ ".ESI"],
   [(⟨2020, 9, 30⟩, [some 1, some 2, some 3, some 4, some 5, some 6])]⟩

/-- The entity code owning a given `usecols` selector. -/
def selToCode (s : String) : String :=
  ((ENTITY_COLS.find? fun p => p.2 == s).map Prod.fst).getD "eu"

/-- An environment with no cache files whose spreadsheet reads return each
entity's own properly-labelled one-row block. -/
def envC : Env := ⟨fun _ => none, fun s => tblC (selToCode s)⟩

/-- Per-entity tables with proper column labels throughout but a two-row
table for `eu` and one-row tables for everyone else. -/
def tblMis (ec : String) : DTable :=
  if ec = "eu" then tblW2 else tblC ec

/-- An environment whose 16 cache files all exist, hold properly-labelled
per-entity tables, and disagree on row count (`eu` has 2 rows, the rest 1):
the cache-load branch accepts it and every column lookup succeeds. -/
def envMis : Env :=
  ⟨fun ec => if ec ∈ ENTITY_CODES then some (dtableToCsv (tblMis ec))
    else none,
   fun _ => tblW⟩

/-- The history result of `envC` for `.INDU`. -/
def historyC : HistoryOut :=
  ⟨ENTITY_CODES.map fun ec => (ec, [some 1]), [⟨2020, 9⟩]⟩

/-! ## Lemmas about the sort model -/

theorem ascOk_of_not_lt {a b : String × EV} (h : evLtPair b a = false) :
    ascOk a b := by
  intro x y hx hy
  simp only [evLtPair, evLt, hx, hy] at h
  exact le_of_not_lt (by simpa using h)

theorem ascOk_of_lt {a b : String × EV} (h : evLtPair a b = true) :
    ascOk a b := by
  intro x y hx hy
  simp only [evLtPair, hx, hy, evLt] at h
  exact le_of_lt (by simpa using h)

theorem evLtPair_none {x y : String × EV} (h : x.2 = none) :
    evLtPair x y = false := by
  show evLt x.2 y.2 = false
  rw [h]
  cases y.2 <;> rfl

theorem evLtPair_none_right {x y : String × EV} (h : y.2 = none) :
    evLtPair x y = false := by
  show evLt x.2 y.2 = false
  rw [h]
  cases x.2 <;> rfl

theorem bins_spec (lt : α → α → Bool) (pivot : α) (a : List α) :
    ∀ fuel l r, r - l ≤ fuel → l ≤ r → r ≤ a.length →
      l ≤ bins lt pivot a fuel l r ∧ bins lt pivot a fuel l r ≤ r ∧
      (l < bins lt pivot a fuel l r →
        lt pivot (a.getD (bins lt pivot a fuel l r - 1) pivot) = false) ∧
      (bins lt pivot a fuel l r < r →
        lt pivot (a.getD (bins lt pivot a fuel l r) pivot) = true) := by
  intro fuel
  induction fuel with
  | zero =>
    intro l r hfuel hlr _
    have : l = r := by omega
    subst this
    simp [bins]
  | succ fuel ih =>
    intro l r hfuel hlr hra
    by_cases hcase : l < r
    · have hp1 : l + (r - l) / 2 < r := by omega
      have hp0 : l ≤ l + (r - l) / 2 := by omega
      by_cases hprobe : lt pivot (a.getD (l + (r - l) / 2) pivot) = true
      · have hrec := ih l (l + (r - l) / 2) (by omega) hp0 (by omega)
        simp only [bins, if_pos hcase, if_pos hprobe]
        refine ⟨hrec.1, by omega, hrec.2.2.1, ?_⟩
        intro hlt
        rcases Nat.lt_or_ge (bins lt pivot a fuel l (l + (r - l) / 2))
            (l + (r - l) / 2) with h | h
        · exact hrec.2.2.2 h
        · have : bins lt pivot a fuel l (l + (r - l) / 2) = l + (r - l) / 2 := by
            omega
          rw [this]; exact hprobe
      · have hprobe' : lt pivot (a.getD (l + (r - l) / 2) pivot) = false := by
          simpa using hprobe
        have hrec := ih (l + (r - l) / 2 + 1) r (by omega) (by omega) hra
        simp only [bins, if_pos hcase, if_neg hprobe]
        refine ⟨by omega, hrec.2.1, ?_, hrec.2.2.2⟩
        intro hlt
        rcases Nat.lt_or_ge (l + (r - l) / 2 + 1)
            (bins lt pivot a fuel (l + (r - l) / 2 + 1) r) with h | h
        · exact hrec.2.2.1 h
        · have : bins lt pivot a fuel (l + (r - l) / 2 + 1) r
              = l + (r - l) / 2 + 1 := by omega
          rw [this]
          simpa using hprobe'
    · have : l = r := by omega
      subst this
      simp [bins]

theorem bins_all_false (lt : α → α → Bool) (pivot : α) (a : List α)
    (hall : ∀ y, lt pivot y = false) :
    ∀ fuel l r, r - l ≤ fuel → l ≤ r → bins lt pivot a fuel l r = r := by
  intro fuel
  induction fuel with
  | zero =>
    intro l r h1 h2
    have h3 : l = r := by omega
    subst h3
    simp [bins]
  | succ fuel ih =>
    intro l r h1 h2
    by_cases hcase : l < r
    · simp only [bins, if_pos hcase, hall, if_neg (Bool.false_ne_true)]
      exact ih _ _ (by omega) (by omega)
    · have h3 : l = r := by omega
      subst h3
      simp [bins]

theorem insertAt_nil (n : Nat) (x : α) : insertAt n x [] = [x] := by
  cases n <;> rfl

theorem insertAt_zero (x : α) (l : List α) : insertAt 0 x l = x :: l := rfl

theorem insertAt_succ (n : Nat) (x a : α) (t : List α) :
    insertAt (n + 1) x (a :: t) = a :: insertAt n x t := rfl

theorem insertAt_length_self (x : α) (l : List α) :
    insertAt l.length x l = l ++ [x] := by
  induction l with
  | nil => rfl
  | cons a t ih => simpa [insertAt_succ] using ih

theorem insertAt_perm (n : Nat) (x : α) (l : List α) :
    List.Perm (insertAt n x l) (x :: l) := by
  induction l generalizing n with
  | nil => simp [insertAt_nil]
  | cons a t ih =>
    cases n with
    | zero => simp [insertAt_zero]
    | succ m =>
      rw [insertAt_succ]
      exact ((ih m).cons a).trans (List.Perm.swap x a t)

theorem chain'_insertAt {R : α → α → Prop} :
    ∀ (pos : Nat) (l : List α) (x : α), pos ≤ l.length →
      List.Chain' R l →
      (∀ a, l.get? (pos - 1) = some a → pos ≠ 0 → R a x) →
      (∀ b, l.get? pos = some b → R x b) →
      List.Chain' R (insertAt pos x l) := by
  intro pos
  induction pos with
  | zero =>
    intro l x _ hc _ hright
    rw [insertAt_zero]
    cases l with
    | nil => simp
    | cons a t =>
      exact List.chain'_cons.mpr ⟨hright a rfl, hc⟩
  | succ n ih =>
    intro l x hlen hc hleft hright
    cases l with
    | nil => simp at hlen
    | cons a t =>
      rw [insertAt_succ]
      refine List.chain'_cons'.mpr ⟨?_, ?_⟩
      · intro y hy
        cases n with
        | zero =>
          rw [insertAt_zero] at hy
          simp only [List.head?_cons, Option.mem_def, Option.some.injEq] at hy
          subst hy
          exact hleft a rfl (by omega)
        | succ m =>
          have ht : t ≠ [] := by
            intro hteq
            subst hteq
            simp only [List.length_cons, List.length_nil] at hlen
            omega
          rcases t with _ | ⟨b, t2⟩
          · exact absurd rfl ht
          · rw [insertAt_succ] at hy
            simp only [List.head?_cons, Option.mem_def, Option.some.injEq] at hy
            subst hy
            exact (List.chain'_cons.mp hc).1
      · refine ih t x (by simpa using hlen) (List.Chain'.tail hc) ?_ ?_
        · intro b hb hn
          rcases Nat.exists_eq_succ_of_ne_zero hn with ⟨m, rfl⟩
          exact hleft b (by simpa using hb) (by omega)
        · intro b hb
          exact hright b (by simpa using hb)

theorem getD_of_get? {l : List α} {n : Nat} {a : α} (d : α)
    (h : l.get? n = some a) : l.getD n d = a := by
  simp [List.getD_eq_getElem?_getD, ← List.get?_eq_getElem?, h]

theorem binsort_chain (rest : List (String × EV)) :
    ∀ acc, List.Chain' ascOk acc →
      List.Chain' ascOk (binsort evLtPair acc rest) := by
  induction rest with
  | nil => intro acc h; exact h
  | cons x rest ih =>
    intro acc hacc
    have hspec := bins_spec evLtPair x acc acc.length 0 acc.length
      (by omega) (by omega) (le_refl _)
    set pos := bins evLtPair x acc acc.length 0 acc.length with hpos
    refine ih _ (chain'_insertAt pos acc x hspec.2.1 hacc ?_ ?_)
    · intro a ha hne
      have h0 : 0 < pos := Nat.pos_of_ne_zero hne
      have := hspec.2.2.1 h0
      rw [getD_of_get? x ha] at this
      exact ascOk_of_not_lt this
    · intro b hb
      have hlt : pos < acc.length := by
        by_contra hge
        rw [List.get?_eq_none.mpr (by omega)] at hb
        exact Option.noConfusion hb
      have := hspec.2.2.2 hlt
      rw [getD_of_get? x hb] at this
      exact ascOk_of_lt this

theorem binsort_perm (lt : α → α → Bool) (rest : List α) :
    ∀ acc, List.Perm (binsort lt acc rest) (acc ++ rest) := by
  induction rest with
  | nil => intro acc; simp [binsort]
  | cons x rest ih =>
    intro acc
    show (binsort lt
      (insertAt (bins lt x acc acc.length 0 acc.length) x acc) rest).Perm
      (acc ++ x :: rest)
    exact (ih _).trans
      (((insertAt_perm _ x acc).append_right rest).trans List.perm_middle.symm)

theorem countAsc_append (lt : α → α → Bool) :
    ∀ (l : List α) (prev : α),
      (countAsc lt prev l).1 ++ (countAsc lt prev l).2 = l := by
  intro l
  induction l with
  | nil => intro prev; rfl
  | cons x t ih =>
    intro prev
    by_cases h : lt x prev = true
    · simp [countAsc, h]
    · simp only [countAsc, if_neg h]
      simpa using ih x

theorem countDesc_append (lt : α → α → Bool) :
    ∀ (l : List α) (prev : α),
      (countDesc lt prev l).1 ++ (countDesc lt prev l).2 = l := by
  intro l
  induction l with
  | nil => intro prev; rfl
  | cons x t ih =>
    intro prev
    by_cases h : lt x prev = true
    · simp only [countDesc, if_pos h]
      simpa using ih x
    · simp [countDesc, h]

theorem countAsc_chain :
    ∀ (l : List (String × EV)) (prev : String × EV),
      List.Chain' ascOk (prev :: (countAsc evLtPair prev l).1) := by
  intro l
  induction l with
  | nil => intro prev; simp [countAsc]
  | cons x t ih =>
    intro prev
    by_cases h : evLtPair x prev = true
    · simp [countAsc, h]
    · simp only [countAsc, if_neg h]
      exact List.chain'_cons.mpr
        ⟨ascOk_of_not_lt (by simpa using h), ih x⟩

theorem countDesc_chain :
    ∀ (l : List (String × EV)) (prev : String × EV),
      List.Chain' (flip ascOk) (prev :: (countDesc evLtPair prev l).1) := by
  intro l
  induction l with
  | nil => intro prev; simp [countDesc]
  | cons x t ih =>
    intro prev
    by_cases h : evLtPair x prev = true
    · simp only [countDesc, if_pos h]
      exact List.chain'_cons.mpr ⟨ascOk_of_lt h, ih x⟩
    · simp [countDesc, h]

theorem initialRun_chain (l : List (String × EV)) :
    List.Chain' ascOk (initialRun evLtPair l).1 := by
  match l with
  | [] => simp [initialRun]
  | [a] => simp [initialRun]
  | a :: b :: t =>
    by_cases h : evLtPair b a = true
    · simp only [initialRun, if_pos h]
      rw [List.chain'_reverse]
      exact List.chain'_cons.mpr ⟨ascOk_of_lt h, countDesc_chain t b⟩
    · simp only [initialRun, if_neg h]
      exact List.chain'_cons.mpr
        ⟨ascOk_of_not_lt (by simpa using h), countAsc_chain t b⟩

theorem initialRun_perm (lt : α → α → Bool) (l : List α) :
    List.Perm ((initialRun lt l).1 ++ (initialRun lt l).2) l := by
  match l with
  | [] => simp [initialRun]
  | [a] => simp [initialRun]
  | a :: b :: t =>
    by_cases h : lt b a = true
    · simp only [initialRun, if_pos h]
      have he : (a :: b :: (countDesc lt b t).1) ++ (countDesc lt b t).2
          = a :: b :: t := by
        simp only [List.cons_append]
        rw [countDesc_append]
      have hp := (List.reverse_perm
        (a :: b :: (countDesc lt b t).1)).append_right (countDesc lt b t).2
      rw [he] at hp
      exact hp
    · simp only [initialRun, if_neg h]
      have he : (a :: b :: (countAsc lt b t).1) ++ (countAsc lt b t).2
          = a :: b :: t := by
        simp only [List.cons_append]
        rw [countAsc_append]
      rw [he]

theorem pySortAsc_chain (l : List (String × EV)) :
    List.Chain' ascOk (pySortAsc evLtPair l) :=
  binsort_chain _ _ (initialRun_chain l)

theorem pySortAsc_perm (lt : α → α → Bool) (l : List α) :
    List.Perm (pySortAsc lt l) l :=
  (binsort_perm lt _ _).trans (initialRun_perm lt l)

theorem pySorted_perm (lt : α → α → Bool) (l : List α) (rev : Bool) :
    List.Perm (pySorted lt l rev) l := by
  cases rev with
  | false => exact pySortAsc_perm lt l
  | true =>
    exact (List.reverse_perm _).trans
      ((pySortAsc_perm lt l.reverse).trans (List.reverse_perm l))

theorem pySorted_rev_chain (l : List (String × EV)) :
    List.Chain' descOk (pySorted evLtPair l true) := by
  have h := pySortAsc_chain (l.reverse)
  simp only [pySorted, if_pos]
  rw [List.chain'_reverse]
  exact h.imp fun a b hab => fun x y hx hy => hab y x hy hx

/-! NaN entries are never moved relative to the other entries of the input:
the NaN subsequence of the output equals that of the input. -/

theorem insertAt_filter_not {p : α → Bool} {x : α} (hx : p x = false) :
    ∀ (n : Nat) (l : List α),
      (insertAt n x l).filter p = l.filter p := by
  intro n
  induction n with
  | zero => intro l; rw [insertAt_zero, List.filter_cons, hx]; simp
  | succ m ih =>
    intro l
    cases l with
    | nil => simp [insertAt_nil, List.filter_cons, hx]
    | cons a t => rw [insertAt_succ, List.filter_cons, List.filter_cons, ih]

theorem binsort_filter (rest : List (String × EV)) :
    ∀ acc, (binsort evLtPair acc rest).filter isNanP
      = acc.filter isNanP ++ rest.filter isNanP := by
  induction rest with
  | nil => intro acc; simp [binsort]
  | cons x rest ih =>
    intro acc
    by_cases hx : isNanP x = true
    · have hx2 : x.2 = none := by
        simpa [isNanP, Option.isNone_iff_eq_none] using hx
      have hpos : bins evLtPair x acc acc.length 0 acc.length = acc.length :=
        bins_all_false evLtPair x acc (fun y => evLtPair_none hx2)
          acc.length 0 acc.length (by omega) (by omega)
      show (binsort evLtPair (insertAt _ x acc) rest).filter isNanP = _
      rw [hpos, insertAt_length_self, ih, List.filter_append,
        List.filter_cons, hx, List.filter_cons, hx]
      simp
    · have hx' : isNanP x = false := by simpa using hx
      show (binsort evLtPair (insertAt _ x acc) rest).filter isNanP = _
      rw [ih, insertAt_filter_not hx', List.filter_cons, hx']
      simp

theorem countDesc_all_not_nan :
    ∀ (l : List (String × EV)) (prev : String × EV),
      ∀ x ∈ (countDesc evLtPair prev l).1, isNanP x = false := by
  intro l
  induction l with
  | nil => intro prev x hx; simp [countDesc] at hx
  | cons c t ih =>
    intro prev x hx
    by_cases h : evLtPair c prev = true
    · simp only [countDesc, if_pos h, List.mem_cons] at hx
      rcases hx with rfl | hx
      · rcases hc2 : x.2 with _ | v
        · rw [evLtPair_none hc2] at h; exact Bool.noConfusion h
        · simp [isNanP, hc2]
      · exact ih c x hx
    · simp [countDesc, h] at hx

theorem initialRun_filter (l : List (String × EV)) :
    (initialRun evLtPair l).1.filter isNanP
      ++ (initialRun evLtPair l).2.filter isNanP = l.filter isNanP := by
  match l with
  | [] => simp [initialRun]
  | [a] => simp [initialRun]
  | a :: b :: t =>
    by_cases h : evLtPair b a = true
    · simp only [initialRun, if_pos h]
      have hnn : ∀ x ∈ a :: b :: (countDesc evLtPair b t).1, isNanP x = false := by
        intro x hx
        simp only [List.mem_cons] at hx
        rcases hx with rfl | rfl | hx
        · rcases ha2 : x.2 with _ | v
          · rw [evLtPair_none_right ha2] at h; exact Bool.noConfusion h
          · simp [isNanP, ha2]
        · rcases hb2 : x.2 with _ | v
          · rw [evLtPair_none hb2] at h; exact Bool.noConfusion h
          · simp [isNanP, hb2]
        · exact countDesc_all_not_nan t b _ hx
      have hrunnil : (a :: b :: (countDesc evLtPair b t).1).filter isNanP = [] :=
        List.filter_eq_nil_iff.mpr (by intro x hx; simp [hnn x hx])
      rw [List.filter_reverse, hrunnil]
      have := countDesc_append evLtPair t b
      conv_rhs => rw [show a :: b :: t
        = (a :: b :: (countDesc evLtPair b t).1) ++ (countDesc evLtPair b t).2 by
          simp only [List.cons_append]; rw [this]]
      rw [List.filter_append, hrunnil]
      simp
    · simp only [initialRun, if_neg h]
      conv_rhs => rw [show a :: b :: t
        = (a :: b :: (countAsc evLtPair b t).1) ++ (countAsc evLtPair b t).2 by
          simp only [List.cons_append]; rw [countAsc_append]]
      rw [List.filter_append]

theorem pySortAsc_filter (l : List (String × EV)) :
    (pySortAsc evLtPair l).filter isNanP = l.filter isNanP := by
  show (binsort evLtPair _ _).filter isNanP = _
  rw [binsort_filter, initialRun_filter]

theorem pySorted_rev_filter (l : List (String × EV)) :
    (pySorted evLtPair l true).filter isNanP = l.filter isNanP := by
  simp only [pySorted, if_pos]
  rw [List.filter_reverse, pySortAsc_filter, List.filter_reverse,
    List.reverse_reverse]

/-! ## Claim theorems -/

/-- C6: for every component token not among the 6 recognized suffixes and
every window length, `get_historical_values` returns exactly the result of
`get_historical_values` with the composite `.ESI` suffix; the unrecognized
token is never an error. -/
theorem c6_unknown_component_falls_back (env : Env) (comp : String)
    (months : Nat) (h : comp ∉ ESI_COMPONENTS) :
    get_historical_values env comp months
      = get_historical_values env ".ESI" months := by
  simp only [get_historical_values, if_neg h,
    if_pos (by decide : ".ESI" ∈ ESI_COMPONENTS)]

/-- C6 witness: `get_historical_values("not_a_real_suffix", months=6)`
equals `get_historical_values(".ESI", months=6)` on a concrete well-formed
environment. -/
theorem c6_witness :
    get_historical_values envC "not_a_real_suffix" 6
      = get_historical_values envC ".ESI" 6 :=
  c6_unknown_component_falls_back envC "not_a_real_suffix" 6 (by decide)

/-- C3: `_fetch_esi_tables` checks each entity's cache file; if all exist,
every table is loaded by parsing its cache file (first column as date
index) and the spreadsheet is not read and the cache is unchanged; if any
is missing, all 16 tables come from per-entity spreadsheet reads (that
entity's catalog column selector, header row 0, index column 0) and all 16
cache files are rewritten. -/
theorem c3_cache_all_or_nothing (env : Env) :
    (weHaveCsvs env = true →
      (∀ ec, (fetchEsiTables env).tables ec
          = (csvToDTable ((env.cache ec).getD [])).toPeriodIndex)
      ∧ (fetchEsiTables env).newCache = env.cache
      ∧ (fetchEsiTables env).xlsxCalls = [])
    ∧ (weHaveCsvs env = false →
      (∀ ec, (fetchEsiTables env).tables ec
          = (env.xlsx ((ENTITY_COLS.lookup ec).getD "")).toPeriodIndex)
      ∧ (fetchEsiTables env).xlsxCalls
          = ENTITY_COLS.map (fun p => ⟨p.2, 0, 0⟩)
      ∧ ∀ ec ∈ ENTITY_CODES, (fetchEsiTables env).newCache ec
          = some (dtableToCsv (env.xlsx ((ENTITY_COLS.lookup ec).getD "")))) := by
  constructor
  · intro h
    refine ⟨fun ec => ?_, ?_, ?_⟩ <;>
      simp [fetchEsiTables, h, loadEsiTablesFromCsv]
  · intro h
    refine ⟨fun ec => ?_, ?_, fun ec hec => ?_⟩
    · simp [fetchEsiTables, h, importEsiTablesFromXlsx]
    · simp [fetchEsiTables, h, importEsiTablesFromXlsx]
    · simp [fetchEsiTables, h, importEsiTablesFromXlsx, createEsiCsvTables, hec]

/-- C3 witness: on an environment with no cache files, the fetched table
for `eu` comes from the spreadsheet read with the `eu` column selector, and
its cache file is written. -/
theorem c3_witness :
    (fetchEsiTables envW).tables "eu" = (envW.xlsx "A,C:H").toPeriodIndex
    ∧ (fetchEsiTables envW).newCache "eu"
        = some (dtableToCsv (envW.xlsx "A,C:H")) := by
  have h := (c3_cache_all_or_nothing envW).2 (by decide)
  have hsel : (ENTITY_COLS.lookup "eu").getD "" = "A,C:H" := by decide
  have h1 := h.1 "eu"
  have h2 := h.2.2 "eu" (by decide)
  rw [hsel] at h1 h2
  exact ⟨h1, h2⟩

/-- C10: when some cache file is missing and the ranking query is out of
range, all 16 cache files have still been written (to the freshly imported
tables) when the operation terminates with the fatal error: the cache write
precedes the date-range check. -/
theorem c10_cache_written_before_fatal (env : Env) (now : Date)
    (dateArg : Option Period) (hmiss : weHaveCsvs env = false)
    (_ : (get_latest_rankings env now dateArg).1
      = .error "Date given is out of range") :
    ∀ ec ∈ ENTITY_CODES,
      (get_latest_rankings env now dateArg).2.1 ec
        = some (dtableToCsv (env.xlsx ((ENTITY_COLS.lookup ec).getD ""))) := by
  intro ec hec
  have hcache : (get_latest_rankings env now dateArg).2.1
      = (fetchEsiTables env).newCache := by
    simp only [get_latest_rankings]
    split <;> rfl
  rw [hcache]
  simp [fetchEsiTables, hmiss, importEsiTablesFromXlsx, createEsiCsvTables, hec]

/-- C10 witness: concrete missing-cache environment and an out-of-range
month: the fatal error occurs and the `eu` cache file was written. -/
theorem c10_witness :
    (get_latest_rankings envW ⟨2020, 10, 5⟩ (some ⟨1999, 1⟩)).2.1 "eu"
      = some (dtableToCsv (envW.xlsx ((ENTITY_COLS.lookup "eu").getD ""))) :=
  c10_cache_written_before_fatal envW ⟨2020, 10, 5⟩ (some ⟨1999, 1⟩)
    (by decide) (by rfl) "eu" (by decide)

/-- The `latest_values` loop exits with the fixed message as soon as some
entity's window slice is empty. -/
theorem latestValuesFor_error (tables : String → PTable) (s e : Period) :
    ∀ keys : List String,
      (∃ ec ∈ keys, windowSlice (tables ec) s e = []) →
      latestValuesFor tables s e keys
        = .error "Date given is out of range" := by
  intro keys
  induction keys with
  | nil => rintro ⟨ec, hmem, _⟩; simp at hmem
  | cons k rest ih =>
    rintro ⟨ec, hmem, hempty⟩
    rcases List.mem_cons.mp hmem with rfl | hmem2
    · simp [latestValuesFor, hempty]
    · cases hlast : (windowSlice (tables k) s e).getLast? with
      | none => simp [latestValuesFor, hlast]
      | some row =>
        simp [latestValuesFor, hlast, ih ⟨ec, hmem2, hempty⟩, Except.map]

/-- C2 counterexample to the stated message: the fatal message is
`Date given is out of range`, not `date out of range`. -/
theorem c2_counterexample :
    (get_latest_rankings envW ⟨2020, 10, 5⟩ (some ⟨1999, 1⟩)).1
      = .error "Date given is out of range"
    ∧ "Date given is out of range" ≠ "date out of range" :=
  ⟨by rfl, by decide⟩

/-- C2 amended: whenever the window slice of at least one entity is empty,
`get_latest_rankings` terminates with the single fixed fatal message
`Date given is out of range` and returns no ranking at all. -/
theorem c2_out_of_range_fatal (env : Env) (now : Date)
    (dateArg : Option Period)
    (hex : ∃ ec ∈ ESI_ENTITIES.map Prod.fst,
      windowSlice ((fetchEsiTables env).tables ec)
        (rankingWindow now dateArg).1 (rankingWindow now dateArg).2 = []) :
    (get_latest_rankings env now dateArg).1
      = .error "Date given is out of range" := by
  simp only [get_latest_rankings]
  rw [latestValuesFor_error _ _ _ _ hex]

/-- C2 witness: a concrete out-of-range query where the `eu` slice is
empty. -/
theorem c2_witness :
    (get_latest_rankings envW ⟨2020, 10, 5⟩ (some ⟨1999, 1⟩)).1
      = .error "Date given is out of range" :=
  c2_out_of_range_fatal envW ⟨2020, 10, 5⟩ (some ⟨1999, 1⟩)
    ⟨"eu", by decide, by decide⟩

/-- A successful `latest_values` loop binds each entity to the values of
the last row of its window slice. -/
theorem latestValuesFor_lookup (tables : String → PTable) (s e : Period) :
    ∀ (keys : List String) lv,
      latestValuesFor tables s e keys = .ok lv →
      ∀ ec v, lv.lookup ec = some v →
        ∃ row, (windowSlice (tables ec) s e).getLast? = some row
          ∧ v = row.2 := by
  intro keys
  induction keys with
  | nil =>
    intro lv h ec v hv
    simp only [latestValuesFor, Except.ok.injEq] at h
    subst h
    simp at hv
  | cons k rest ih =>
    intro lv h ec v hv
    cases hlast : (windowSlice (tables k) s e).getLast? with
    | none => simp [latestValuesFor, hlast] at h
    | some row =>
      simp only [latestValuesFor, hlast] at h
      cases hrec : latestValuesFor tables s e rest with
      | error m => rw [hrec] at h; simp [Except.map] at h
      | ok lv2 =>
        rw [hrec] at h
        simp only [Except.map, Except.ok.injEq] at h
        subst h
        by_cases hk : ec = k
        · subst hk
          simp [List.lookup] at hv
          exact ⟨row, hlast, hv.symm⟩
        · have hbe : (ec == k) = false := beq_eq_false_iff_ne.mpr hk
          simp only [List.lookup, hbe] at hv
          exact ih lv2 hrec ec v hv

/-- C4: with no month given the window is [previous calendar month of the
current system date, current calendar month]; with a month given that month
is both window bounds; in either case the values used for each entity are
those of the last row of its table inside the window. -/
theorem c4_window (env : Env) (now : Date) (dateArg : Option Period) :
    (dateArg = none → 1 ≤ now.year → 1 ≤ now.month → now.month ≤ 12 →
      monthCode (rankingWindow now dateArg).1 + 1
          = monthCode ⟨now.year, now.month⟩
      ∧ (rankingWindow now dateArg).2 = ⟨now.year, now.month⟩)
    ∧ (∀ d, dateArg = some d → rankingWindow now dateArg = (d, d))
    ∧ ∀ lv, latestValuesFor (fetchEsiTables env).tables
          (rankingWindow now dateArg).1 (rankingWindow now dateArg).2
          (ESI_ENTITIES.map Prod.fst) = .ok lv →
        ∀ ec v, lv.lookup ec = some v →
          ∃ row, (windowSlice ((fetchEsiTables env).tables ec)
              (rankingWindow now dateArg).1
              (rankingWindow now dateArg).2).getLast? = some row
            ∧ v = row.2 := by
  refine ⟨?_, ?_, ?_⟩
  · intro h hy hm1 hm2
    subst h
    constructor
    · simp only [rankingWindow, prevMonthPeriod, monthCode]
      by_cases h1 : now.month = 1 <;> simp [h1] <;> omega
    · rfl
  · intro d h; subst h; rfl
  · exact latestValuesFor_lookup _ _ _ _

/-- C4 witness: concrete instances of the no-month window, the
given-month window, and the last-in-window row extraction. -/
theorem c4_witness :
    (monthCode (rankingWindow ⟨2021, 1, 15⟩ none).1 + 1
        = monthCode ⟨2021, 1⟩
      ∧ (rankingWindow ⟨2021, 1, 15⟩ none).2 = ⟨2021, 1⟩)
    ∧ rankingWindow ⟨2021, 1, 15⟩ (some ⟨2020, 9⟩) = (⟨2020, 9⟩, ⟨2020, 9⟩)
    ∧ ∃ row, (windowSlice ((fetchEsiTables envW).tables "eu")
        (rankingWindow ⟨2020, 10, 5⟩ (some ⟨2020, 9⟩)).1
        (rankingWindow ⟨2020, 10, 5⟩ (some ⟨2020, 9⟩)).2).getLast? = some row
        ∧ [some 1, some 2, some 3, some 4, some 5, some 6] = row.2 := by
  refine ⟨(c4_window envW ⟨2021, 1, 15⟩ none).1 rfl (by decide) (by decide)
    (by decide), (c4_window envW ⟨2021, 1, 15⟩ (some ⟨2020, 9⟩)).2.1 _ rfl, ?_⟩
  exact (c4_window envW ⟨2020, 10, 5⟩ (some ⟨2020, 9⟩)).2.2
    ((ESI_ENTITIES.map Prod.fst).map
      (fun ec => (ec, [some 1, some 2, some 3, some 4, some 5, some 6])))
    (by rfl) "eu" _ (by rfl)

/-- The length of `tail(n)`. -/
theorem tailN_length (n : Nat) (l : List α) :
    (tailN n l).length = min n l.length := by
  simp only [tailN, List.length_drop]
  omega

/-- C1: every ranking list produced by `get_latest_rankings` is the CPython
descending sort of its catalog-order input: adjacent pairs with both values
non-missing are in non-increasing order, and NaN entries keep their stable
relative position from input order (the NaN subsequence of the output is
exactly the NaN subsequence of the catalog-order input) instead of being
pulled to either end. -/
theorem c1_ranking_sorted_descending :
    (∀ l : List (String × EV),
      List.Chain' descOk (pySorted evLtPair l true)
      ∧ (pySorted evLtPair l true).filter isNanP = l.filter isNanP)
    ∧ ∀ (env : Env) (now : Date) (dateArg : Option Period) r,
        (get_latest_rankings env now dateArg).1 = .ok r →
        ∀ p ∈ r, ∃ idx lv,
          latestValuesFor (fetchEsiTables env).tables
            (rankingWindow now dateArg).1 (rankingWindow now dateArg).2
            (ESI_ENTITIES.map Prod.fst) = .ok lv
          ∧ p.2 = pySorted evLtPair (rankingInput lv idx) true
          ∧ List.Chain' descOk p.2
          ∧ p.2.filter isNanP = (rankingInput lv idx).filter isNanP := by
  constructor
  · intro l
    exact ⟨pySorted_rev_chain l, pySorted_rev_filter l⟩
  · intro env now d r hr p hp
    simp only [get_latest_rankings] at hr
    split at hr
    · exact absurd hr (by simp)
    · rename_i lv heq
      simp only [Except.ok.injEq] at hr
      subst hr
      simp only [List.mem_cons, List.not_mem_nil, or_false] at hp
      rcases hp with rfl | rfl | rfl | rfl | rfl | rfl
      · exact ⟨0, lv, heq, rfl, pySorted_rev_chain _, pySorted_rev_filter _⟩
      · exact ⟨1, lv, heq, rfl, pySorted_rev_chain _, pySorted_rev_filter _⟩
      · exact ⟨2, lv, heq, rfl, pySorted_rev_chain _, pySorted_rev_filter _⟩
      · exact ⟨3, lv, heq, rfl, pySorted_rev_chain _, pySorted_rev_filter _⟩
      · exact ⟨4, lv, heq, rfl, pySorted_rev_chain _, pySorted_rev_filter _⟩
      · exact ⟨5, lv, heq, rfl, pySorted_rev_chain _, pySorted_rev_filter _⟩

/-- C1 witness: the concrete `esi` ranking of `envW` is the descending sort
of its catalog-order input, adjacency-sorted with a stable NaN
subsequence. -/
theorem c1_witness :
    ∃ idx lv,
      latestValuesFor (fetchEsiTables envW).tables
        (rankingWindow ⟨2020, 10, 5⟩ (some ⟨2020, 9⟩)).1
        (rankingWindow ⟨2020, 10, 5⟩ (some ⟨2020, 9⟩)).2
        (ESI_ENTITIES.map Prod.fst) = .ok lv
      ∧ allLabelsW (some 6) = pySorted evLtPair (rankingInput lv idx) true
      ∧ List.Chain' descOk (allLabelsW (some 6))
      ∧ (allLabelsW (some 6)).filter isNanP
          = (rankingInput lv idx).filter isNanP :=
  c1_ranking_sorted_descending.2 envW ⟨2020, 10, 5⟩ (some ⟨2020, 9⟩)
    rankingsW (by rfl) ("esi", allLabelsW (some 6)) (by decide)

/-- C5: a successful `get_latest_rankings` returns exactly 6 rankings with
the 6 component keys, and each ranking has exactly 16 `(display-name,
value)` entries, one per catalog entity, with no duplicate entities. -/
theorem c5_six_rankings (env : Env) (now : Date) (dateArg : Option Period)
    (r : List (String × List (String × EV)))
    (hr : (get_latest_rankings env now dateArg).1 = .ok r) :
    (r.map Prod.fst).Perm
      ["esi", "industrial_confidence", "services_confidence",
       "consumer_confidence", "retail_confidence", "construction_confidence"]
    ∧ ∀ p ∈ r, p.2.length = 16
        ∧ (p.2.map Prod.fst).Perm (ESI_ENTITIES.map Prod.snd)
        ∧ (p.2.map Prod.fst).Nodup := by
  simp only [get_latest_rankings] at hr
  split at hr
  · exact absurd hr (by simp)
  · rename_i lv heq
    simp only [Except.ok.injEq] at hr
    subst hr
    have key : ∀ idx : Nat, (rankingFor lv idx).length = 16
        ∧ ((rankingFor lv idx).map Prod.fst).Perm (ESI_ENTITIES.map Prod.snd)
        ∧ ((rankingFor lv idx).map Prod.fst).Nodup := by
      intro idx
      have hperm := pySorted_perm evLtPair (rankingInput lv idx) true
      have hmap : (rankingInput lv idx).map Prod.fst
          = ESI_ENTITIES.map Prod.snd := by rfl
      have h2 : ((rankingFor lv idx).map Prod.fst).Perm
          (ESI_ENTITIES.map Prod.snd) := by
        have h3 := hperm.map Prod.fst
        rwa [hmap] at h3
      refine ⟨?_, h2, h2.nodup_iff.mpr (by decide)⟩
      show (pySorted evLtPair (rankingInput lv idx) true).length = 16
      rw [hperm.length_eq]
      rfl
    constructor
    · exact (by decide :
        (["industrial_confidence", "services_confidence",
          "consumer_confidence", "retail_confidence",
          "construction_confidence", "esi"] : List String).Perm
        ["esi", "industrial_confidence", "services_confidence",
         "consumer_confidence", "retail_confidence", "construction_confidence"])
    · intro p hp
      simp only [List.mem_cons, List.not_mem_nil, or_false] at hp
      rcases hp with rfl | rfl | rfl | rfl | rfl | rfl
      exacts [key 0, key 1, key 2, key 3, key 4, key 5]

/-- C5 witness: the concrete rankings of `envW` carry the 6 keys and the
`esi` ranking has 16 entries. -/
theorem c5_witness :
    (rankingsW.map Prod.fst).Perm
      ["esi", "industrial_confidence", "services_confidence",
       "consumer_confidence", "retail_confidence", "construction_confidence"]
    ∧ (allLabelsW (some 6)).length = 16 := by
  have h := c5_six_rankings envW ⟨2020, 10, 5⟩ (some ⟨2020, 9⟩) rankingsW
    (by rfl)
  exact ⟨h.1, (h.2 ("esi", allLabelsW (some 6)) (by decide)).1⟩

/-- C8 counterexample: when the source index has two dates in the same
calendar month (2020-01-05 and 2020-01-20), the fetched table's period
index has a duplicate period, refuting the unconditional strict-ordering /
no-duplicates part of the claim (the conversion itself still happens). -/
theorem c8_counterexample :
    (((fetchEsiTables envDup).tables "eu").rows.map Prod.fst
        = [⟨2020, 1⟩, ⟨2020, 1⟩])
    ∧ ¬ (((fetchEsiTables envDup).tables "eu").rows.map Prod.fst).Nodup := by
  constructor <;> decide

/-- C8 amended: every table returned by `_fetch_esi_tables` has its row
index converted from calendar dates to monthly periods (day-of-month
discarded, same-month dates collapsing to one period key); the resulting
index is strictly ordered with no duplicate periods provided the source
date index is strictly increasing at month granularity — the code performs
the conversion but does not enforce the ordering. -/
theorem c8_period_index (env : Env) (ec : String) :
    (((fetchEsiTables env).tables ec).rows.map Prod.fst
      = (if weHaveCsvs env then csvToDTable ((env.cache ec).getD [])
          else env.xlsx ((ENTITY_COLS.lookup ec).getD "")).rows.map
            fun r => r.1.toPeriod)
    ∧ (List.Chain' Period.ltP
          (((fetchEsiTables env).tables ec).rows.map Prod.fst) →
        List.Pairwise Period.ltP
          (((fetchEsiTables env).tables ec).rows.map Prod.fst)
        ∧ (((fetchEsiTables env).tables ec).rows.map Prod.fst).Nodup) := by
  constructor
  · by_cases h : weHaveCsvs env <;>
      simp [fetchEsiTables, h, loadEsiTablesFromCsv, importEsiTablesFromXlsx,
        DTable.toPeriodIndex]
  · intro hchain
    have hpw : List.Pairwise Period.ltP
        (((fetchEsiTables env).tables ec).rows.map Prod.fst) :=
      List.chain'_iff_pairwise.mp hchain
    refine ⟨hpw, hpw.imp ?_⟩
    intro a b hab
    intro hEq
    subst hEq
    unfold Period.ltP at hab
    omega

/-- C8 witness: on a concrete strictly-increasing source index, the fetched
period index is pairwise increasing and duplicate-free. -/
theorem c8_witness :
    List.Pairwise Period.ltP
      (((fetchEsiTables envW2).tables "eu").rows.map Prod.fst)
    ∧ (((fetchEsiTables envW2).tables "eu").rows.map Prod.fst).Nodup :=
  (c8_period_index envW2 "eu").2
    (by
      show List.Chain' Period.ltP [⟨2020, 8⟩, ⟨2020, 9⟩]
      exact List.chain'_pair.mpr (by decide))

/-! ## Lemmas about the CSV cell codecs -/

theorem charVal_digitChar {d : Nat} (h : d < 10) :
    charVal (digitChar d) = d := by
  interval_cases d <;> rfl

theorem natToChars_ne_nil (n : Nat) : natToChars n ≠ [] := by
  unfold natToChars
  split
  · simp
  · rename_i h
    intro hc
    rw [List.reverse_eq_nil_iff, List.map_eq_nil_iff] at hc
    exact h (Nat.digits_eq_nil_iff_eq_zero.mp hc)

theorem mem_natToChars {n : Nat} {c : Char} (h : c ∈ natToChars n) :
    c ≠ '-' ∧ c ≠ '.' := by
  unfold natToChars at h
  split at h
  · simp only [List.mem_singleton] at h
    subst h
    exact ⟨by decide, by decide⟩
  · rw [List.mem_reverse, List.mem_map] at h
    obtain ⟨d, hd, rfl⟩ := h
    have hd10 : d < 10 := Nat.digits_lt_base (by norm_num) hd
    interval_cases d <;> exact ⟨by decide, by decide⟩

theorem mem_padZ {k : Nat} {cs : Str} {c : Char} (h : c ∈ padZ k cs) :
    c = '0' ∨ c ∈ cs := by
  unfold padZ at h
  rw [List.mem_append] at h
  rcases h with h | h
  · exact Or.inl (List.eq_of_mem_replicate h)
  · exact Or.inr h

theorem charsToNat_natToChars (n : Nat) : charsToNat (natToChars n) = n := by
  unfold natToChars
  split
  · rename_i h; subst h; decide
  · unfold charsToNat
    rw [← List.map_reverse, List.reverse_reverse, List.map_map]
    have hall : (Nat.digits 10 n).map (charVal ∘ digitChar)
        = Nat.digits 10 n := by
      conv_rhs => rw [← List.map_id (Nat.digits 10 n)]
      refine List.map_congr_left ?_
      intro d hd
      exact charVal_digitChar (Nat.digits_lt_base (by norm_num) hd)
    rw [hall, Nat.ofDigits_digits]

theorem ofDigits_replicate_zero (j : Nat) :
    Nat.ofDigits 10 (List.replicate j 0) = 0 := by
  induction j with
  | zero => rfl
  | succ m ih => simp [List.replicate, Nat.ofDigits_cons, ih]

theorem charsToNat_padZ (k : Nat) (cs : Str) :
    charsToNat (padZ k cs) = charsToNat cs := by
  unfold padZ charsToNat
  rw [List.map_append, List.map_replicate,
    (by rfl : charVal '0' = 0), List.reverse_append, List.reverse_replicate,
    Nat.ofDigits_append, ofDigits_replicate_zero]
  simp

theorem natToChars_length_le {n k : Nat} (hk : 1 ≤ k) (h : n < 10 ^ k) :
    (natToChars n).length ≤ k := by
  unfold natToChars
  split
  · simpa using hk
  · rename_i hn
    rw [List.length_reverse, List.length_map]
    rw [Nat.digits_len 10 n (by norm_num) hn]
    have := Nat.log_lt_of_lt_pow hn h
    omega

theorem padZ_length {k : Nat} {cs : Str} (h : cs.length ≤ k) :
    (padZ k cs).length = k := by
  unfold padZ
  rw [List.length_append, List.length_replicate]
  omega

theorem splitC_not_mem {sep : Char} {l : Str} (h : sep ∉ l) :
    splitC sep l = [l] := by
  induction l with
  | nil => rfl
  | cons c t ih =>
    have hc : ¬ (c = sep) := by
      intro hcc; exact h (by simp [hcc])
    have ht : sep ∉ t := by
      intro hm; exact h (by simp [hm])
    simp [splitC, if_neg hc, ih ht]

theorem splitC_append {sep : Char} (a rest : Str) (h : sep ∉ a) :
    splitC sep (a ++ sep :: rest) = a :: splitC sep rest := by
  induction a with
  | nil => simp [splitC]
  | cons c t ih =>
    have hc : ¬ (c = sep) := by
      intro hcc; exact h (by simp [hcc])
    have ht : sep ∉ t := by
      intro hm; exact h (by simp [hm])
    simp only [List.cons_append, splitC, if_neg hc]
    rw [show splitC sep (t.append (sep :: rest)) = t :: splitC sep rest from
      ih ht]

theorem decDate_encDate (d : Date) : decDate (encDate d) = d := by
  have hnm : ∀ x : Nat, ∀ k, '-' ∉ padZ k (natToChars x) := by
    intro x k hm
    rcases mem_padZ hm with h | h
    · exact absurd h (by decide)
    · exact (mem_natToChars h).1 rfl
  unfold encDate decDate
  rw [List.append_assoc, List.cons_append,
    splitC_append _ _ (hnm d.year 4), splitC_append _ _ (hnm d.month 2),
    splitC_not_mem (hnm d.day 2)]
  show Date.mk (charsToNat (padZ 4 (natToChars d.year)))
    (charsToNat (padZ 2 (natToChars d.month)))
    (charsToNat (padZ 2 (natToChars d.day))) = d
  rw [charsToNat_padZ, charsToNat_padZ, charsToNat_padZ,
    charsToNat_natToChars, charsToNat_natToChars, charsToNat_natToChars]

theorem decEV_cons_neg (rest : Str) :
    decEV ('-' :: rest)
      = (match splitC '.' rest with
        | [ip] => some ((-1 : ℚ) * (charsToNat ip : ℚ))
        | [ip, fp] => some ((-1 : ℚ)
            * ((charsToNat ip : ℚ) + (charsToNat fp : ℚ) / 10 ^ fp.length))
        | _ => none) := by
  simp [decEV]

theorem decEV_cons_pos (c : Char) (rest : Str) (hc : (c == '-') = false) :
    decEV (c :: rest)
      = (match splitC '.' (c :: rest) with
        | [ip] => some ((charsToNat ip : ℚ))
        | [ip, fp] => some ((charsToNat ip : ℚ)
            + (charsToNat fp : ℚ) / 10 ^ fp.length)
        | _ => none) := by
  simp [decEV, hc]

theorem decEV_enc_aux (qm : Int) (k : Nat) (hk : 1 ≤ k) :
    decEV ((if qm < 0 then ['-'] else []) ++ natToChars (qm.natAbs / 10 ^ k)
      ++ '.' :: padZ k (natToChars (qm.natAbs % 10 ^ k)))
    = some ((qm : ℚ) / (10 : ℚ) ^ k) := by
  have h10 : (0 : Nat) < 10 ^ k := pow_pos (by norm_num) k
  have hip : '.' ∉ natToChars (qm.natAbs / 10 ^ k) := fun hm =>
    (mem_natToChars hm).2 rfl
  have hfp : '.' ∉ padZ k (natToChars (qm.natAbs % 10 ^ k)) := by
    intro hm
    rcases mem_padZ hm with h | h
    · exact absurd h (by decide)
    · exact (mem_natToChars h).2 rfl
  have hsplit : splitC '.' (natToChars (qm.natAbs / 10 ^ k)
      ++ '.' :: padZ k (natToChars (qm.natAbs % 10 ^ k)))
      = [natToChars (qm.natAbs / 10 ^ k),
         padZ k (natToChars (qm.natAbs % 10 ^ k))] := by
    rw [splitC_append _ _ hip, splitC_not_mem hfp]
  have hlen : (padZ k (natToChars (qm.natAbs % 10 ^ k))).length = k :=
    padZ_length (natToChars_length_le hk (Nat.mod_lt _ h10))
  have hbody : ((charsToNat (natToChars (qm.natAbs / 10 ^ k)) : ℚ)
      + (charsToNat (padZ k (natToChars (qm.natAbs % 10 ^ k))) : ℚ)
        / 10 ^ (padZ k (natToChars (qm.natAbs % 10 ^ k))).length)
      = (qm.natAbs : ℚ) / 10 ^ k := by
    rw [charsToNat_natToChars, charsToNat_padZ, charsToNat_natToChars, hlen]
    have h10Q : ((10 : ℚ)) ^ k ≠ 0 := by positivity
    have hN : (qm.natAbs / 10 ^ k) * 10 ^ k + qm.natAbs % 10 ^ k
        = qm.natAbs := Nat.div_add_mod' _ _
    field_simp
    norm_cast
  by_cases hneg : qm < 0
  · rw [if_pos hneg, List.singleton_append, List.cons_append,
      decEV_cons_neg, hsplit]
    show some ((-1 : ℚ) * _) = _
    rw [hbody]
    have haq : ((qm.natAbs : ℚ)) = -(qm : ℚ) := by
      rw [Int.cast_natAbs, abs_of_neg hneg]
      push_cast
      ring
    rw [haq]
    ring_nf
  · rw [if_neg hneg, List.nil_append]
    rcases hnc : natToChars (qm.natAbs / 10 ^ k) with _ | ⟨c, cs0⟩
    · exact absurd hnc (natToChars_ne_nil _)
    · have hcmem : c ∈ natToChars (qm.natAbs / 10 ^ k) := by
        rw [hnc]; exact List.mem_cons_self c cs0
      have hcne : (c == '-') = false :=
        beq_eq_false_iff_ne.mpr (mem_natToChars hcmem).1
      rw [List.cons_append, decEV_cons_pos c _ hcne,
        ← List.cons_append, ← hnc, hsplit]
      show some _ = _
      rw [hbody]
      have haq : ((qm.natAbs : ℚ)) = (qm : ℚ) := by
        rw [Int.cast_natAbs, abs_of_nonneg (not_lt.mp hneg)]
      rw [haq]

theorem decEV_encEV {v : EV} (h : FinDecEV v) : decEV (encEV v) = v := by
  cases v with
  | none => rfl
  | some q =>
    have hk : 1 ≤ q.den := q.den_pos
    have hdvdN : q.den ∣ 10 ^ q.den := h
    have hdvd : ((q.den : ℤ)) ∣ (10 : ℤ) ^ q.den := by exact_mod_cast hdvdN
    show decEV ((if q.num * ((10 : ℤ) ^ q.den / (q.den : ℤ)) < 0
          then ['-'] else [])
        ++ natToChars
          ((q.num * ((10 : ℤ) ^ q.den / (q.den : ℤ))).natAbs / 10 ^ q.den)
        ++ '.' :: padZ q.den (natToChars
          ((q.num * ((10 : ℤ) ^ q.den / (q.den : ℤ))).natAbs % 10 ^ q.den)))
      = some q
    rw [decEV_enc_aux _ _ hk]
    congr 1
    have hDden : ((10 : ℤ) ^ q.den / (q.den : ℤ)) * (q.den : ℤ)
        = (10 : ℤ) ^ q.den := Int.ediv_mul_cancel hdvd
    have hden0 : ((q.den : ℚ)) ≠ 0 := by exact_mod_cast q.den_pos.ne'
    have hpow0 : ((10 : ℚ)) ^ q.den ≠ 0 := by positivity
    have hq : (q.num : ℚ) = q * (q.den : ℚ) :=
      (div_eq_iff hden0).mp (Rat.num_div_den q)
    have hcast : ((((10 : ℤ) ^ q.den / (q.den : ℤ)) : ℤ) : ℚ) * (q.den : ℚ)
        = (10 : ℚ) ^ q.den := by exact_mod_cast hDden
    push_cast
    rw [div_eq_iff hpow0]
    linear_combination ((((10 : ℤ) ^ q.den / (q.den : ℤ)) : ℤ) : ℚ) * hq
      + q * hcast

theorem stringMk_toList (s : String) : String.mk s.toList = s := by
  cases s
  rfl

theorem csvToDTable_dtableToCsv (t : DTable) (h : FinDecTable t) :
    csvToDTable (dtableToCsv t) = t := by
  rcases t with ⟨cols, rows⟩
  unfold dtableToCsv csvToDTable
  simp only [List.tail_cons, DTable.mk.injEq]
  constructor
  · rw [List.map_map]
    conv_rhs => rw [← List.map_id cols]
    exact List.map_congr_left fun s _ => stringMk_toList s
  · rw [List.map_map]
    conv_rhs => rw [← List.map_id rows]
    refine List.map_congr_left ?_
    intro r hr
    show (decDate (encDate r.1), (r.2.map encEV).map decEV) = r
    rw [decDate_encDate, List.map_map]
    have hvals : r.2.map (decEV ∘ encEV) = r.2 := by
      conv_rhs => rw [← List.map_id r.2]
      refine List.map_congr_left ?_
      intro v hv
      exact decEV_encEV (h r hr v hv)
    rw [hvals]

/-- C9: importing a table and writing its cache file, then loading it back
from that cache file, yields an identical table (values and date index):
the cache write/read round-trip is lossless for every table of
finite-decimal cells (the image of IEEE doubles). -/
theorem c9_cache_roundtrip (tabs : String → DTable)
    (cache : String → Option Csv) (ec : String) (hec : ec ∈ ENTITY_CODES)
    (hfin : FinDecTable (tabs ec)) :
    loadEsiTablesFromCsv (createEsiCsvTables tabs cache) ec = tabs ec := by
  unfold loadEsiTablesFromCsv createEsiCsvTables
  rw [if_pos hec]
  exact csvToDTable_dtableToCsv _ hfin

/-- C9 witness: concrete round-trip of `tblW` through its CSV cache file. -/
theorem c9_witness :
    loadEsiTablesFromCsv (createEsiCsvTables (fun _ => tblW) (fun _ => none))
      "eu" = tblW :=
  c9_cache_roundtrip (fun _ => tblW) (fun _ => none) "eu" (by decide)
    (by decide)

/-- A successful per-entity history loop requires every looked-up column
label to be present, and then returns exactly the per-entity tails. -/
theorem historySeries_eq_ok (tables : String → PTable) (comp : String)
    (months : Nat) :
    ∀ keys : List String,
      (∀ ec ∈ keys, (upperStr ec ++ comp) ∈ (tables ec).cols) →
      historySeries tables comp months keys
        = .ok (keys.map fun ec =>
            (ec, tailN months ((tables ec).rows.map fun r =>
              r.2.getD ((tables ec).cols.indexOf (upperStr ec ++ comp))
                none))) := by
  intro keys
  induction keys with
  | nil => intro _; rfl
  | cons ec rest ih =>
    intro hall
    have h1 : (upperStr ec ++ comp) ∈ (tables ec).cols :=
      hall ec (by simp)
    simp only [historySeries, if_pos h1]
    rw [ih (fun e he => hall e (List.mem_cons_of_mem _ he))]
    rfl

/-- Conversely: a successful history loop means every column was present
and the result is the per-entity tails. -/
theorem historySeries_ok_inv (tables : String → PTable) (comp : String)
    (months : Nat) :
    ∀ (keys : List String) lv,
      historySeries tables comp months keys = .ok lv →
      (∀ ec ∈ keys, (upperStr ec ++ comp) ∈ (tables ec).cols)
      ∧ lv = keys.map fun ec =>
          (ec, tailN months ((tables ec).rows.map fun r =>
            r.2.getD ((tables ec).cols.indexOf (upperStr ec ++ comp))
              none)) := by
  intro keys
  induction keys with
  | nil =>
    intro lv h
    simp only [historySeries, Except.ok.injEq] at h
    subst h
    exact ⟨by simp, rfl⟩
  | cons ec rest ih =>
    intro lv h
    by_cases h1 : (upperStr ec ++ comp) ∈ (tables ec).cols
    · simp only [historySeries, if_pos h1] at h
      cases hrec : historySeries tables comp months rest with
      | error m => rw [hrec] at h; simp [Except.map] at h
      | ok lv2 =>
        rw [hrec] at h
        simp only [Except.map, Except.ok.injEq] at h
        subst h
        obtain ⟨ha, hb⟩ := ih lv2 hrec
        refine ⟨?_, by rw [hb, List.map_cons]⟩
        intro e he
        rcases List.mem_cons.mp he with rfl | he2
        · exact h1
        · exact ha e he2
    · simp [historySeries, if_neg h1] at h

/-- C7 counterexample: all 16 cache files exist, every table carries its
own properly-prefixed column labels, but the `eu` file has 2 rows while the
others have 1.  The program accepts this input (the cache-load branch reads
the files and every column lookup succeeds) and returns `ea`'s series of
length 1 against a period axis of length 2, refuting the unconditional
series-length/axis-length equality of the claim. -/
theorem c7_counterexample :
    ∃ r, get_historical_values envMis ".INDU" 2 = Except.ok r
      ∧ ¬ ∀ p ∈ r.countries, p.2.length = r.dates.length := by
  have hw : weHaveCsvs envMis = true := by decide
  have hfinMis : ∀ ec, FinDecTable (tblMis ec) := by
    intro ec
    by_cases hec : ec = "eu"
    · rw [show tblMis ec = tblW2 by simp [tblMis, hec]]
      decide
    · rw [show tblMis ec = tblC ec by simp [tblMis, hec]]
      intro row hrow v hv
      simp only [tblC, List.mem_singleton] at hrow
      subst hrow
      simp only [List.mem_cons, List.not_mem_nil, or_false] at hv
      rcases hv with rfl | rfl | rfl | rfl | rfl | rfl <;> decide
  have hfetch : ∀ ec ∈ ENTITY_CODES,
      (fetchEsiTables envMis).tables ec = (tblMis ec).toPeriodIndex := by
    intro ec hec
    have hc : (envMis.cache ec).getD [] = dtableToCsv (tblMis ec) := by
      simp [envMis, hec]
    have h2 : (fetchEsiTables envMis).tables ec
        = (csvToDTable ((envMis.cache ec).getD [])).toPeriodIndex := by
      simp [fetchEsiTables, hw, loadEsiTablesFromCsv]
    rw [h2, hc, csvToDTable_dtableToCsv _ (hfinMis ec)]
  have hcols : ∀ ec ∈ ENTITY_CODES,
      (upperStr ec ++ ".INDU") ∈ ((fetchEsiTables envMis).tables ec).cols := by
    intro ec hec
    rw [hfetch ec hec]
    fin_cases hec <;> decide
  refine ⟨{ countries := ENTITY_CODES.map fun ec =>
      (ec, tailN 2 (((fetchEsiTables envMis).tables ec).rows.map fun row =>
        row.2.getD (((fetchEsiTables envMis).tables ec).cols.indexOf
              (upperStr ec ++ ".INDU")) none)),
            dates := tailN 2 (((fetchEsiTables envMis).tables
              (ENTITY_CODES.headD "")).rows.map Prod.fst) }, ?_, ?_⟩
  · simp only [get_historical_values,
      if_pos (by decide : ".INDU" ∈ ESI_COMPONENTS)]
    rw [historySeries_eq_ok _ _ _ _ hcols]
    rfl
  · intro hall
    have hmem : ("ea", tailN 2 (((fetchEsiTables envMis).tables "ea").rows.map
        fun row => row.2.getD
          (((fetchEsiTables envMis).tables "ea").cols.indexOf
            (upperStr "ea" ++ ".INDU")) none))
        ∈ ENTITY_CODES.map (fun ec =>
          (ec, tailN 2 (((fetchEsiTables envMis).tables ec).rows.map
            fun row => row.2.getD
              (((fetchEsiTables envMis).tables ec).cols.indexOf
                (upperStr ec ++ ".INDU")) none))) :=
      List.mem_map_of_mem _ (by decide)
    have h1 := hall _ hmem
    dsimp only at h1
    have hd : ENTITY_CODES.headD "" = "eu" := rfl
    rw [hd, hfetch "ea" (by decide), hfetch "eu" (by decide)] at h1
    have hL : (tailN 2 (((tblMis "ea").toPeriodIndex).rows.map
        fun row => row.2.getD
          (((tblMis "ea").toPeriodIndex).cols.indexOf
            (upperStr "ea" ++ ".INDU")) none)).length = 1 := by decide
    have hR : (tailN 2 (((tblMis "eu").toPeriodIndex).rows.map
        Prod.fst)).length = 2 := by decide
    rw [hL, hR] at h1
    exact absurd h1 (by decide)

/-- C7 amended: when `get_historical_values` returns a result (it raises an
uncaught `KeyError` if some entity's table lacks the looked-up column),
each entity's series is the last `months` column values — at most `months`
of them, fewer when fewer rows exist, with no padding, and insufficient
history is never an error — the period axis is the last `months` periods of
the first catalog entity's table, and the series lengths all equal the
period-axis length provided all entity tables have the same number of rows
(which the code does not check). -/
theorem c7_history_windowing (env : Env) (comp : String) (months : Nat)
    (r : HistoryOut)
    (hr : get_historical_values env comp months = .ok r) :
    (∀ p ∈ r.countries, p.2.length ≤ months)
    ∧ r.dates = tailN months
        (((fetchEsiTables env).tables (ENTITY_CODES.headD "")).rows.map
          Prod.fst)
    ∧ (∀ p ∈ r.countries,
        p.2.length = min months (((fetchEsiTables env).tables p.1).rows.length))
    ∧ (∀ months2, ∃ r2, get_historical_values env comp months2 = .ok r2)
    ∧ ((∀ ec ∈ ENTITY_CODES, ((fetchEsiTables env).tables ec).rows.length
          = ((fetchEsiTables env).tables (ENTITY_CODES.headD "")).rows.length) →
        ∀ p ∈ r.countries, p.2.length = r.dates.length) := by
  simp only [get_historical_values] at hr
  cases hs : historySeries (fetchEsiTables env).tables
      (if comp ∈ ESI_COMPONENTS then comp else ".ESI") months ENTITY_CODES with
  | error m => rw [hs] at hr; simp [Except.map] at hr
  | ok cs =>
    rw [hs] at hr
    simp only [Except.map, Except.ok.injEq] at hr
    obtain ⟨hcols, hcs⟩ := historySeries_ok_inv _ _ _ _ _ hs
    subst hcs
    subst hr
    dsimp only
    have hlen : ∀ p ∈ ENTITY_CODES.map (fun ec =>
        (ec, tailN months (((fetchEsiTables env).tables ec).rows.map
          fun row => row.2.getD
            (((fetchEsiTables env).tables ec).cols.indexOf
              (upperStr ec
                ++ (if comp ∈ ESI_COMPONENTS then comp else ".ESI"))) none))),
        p.1 ∈ ENTITY_CODES ∧ p.2.length
          = min months (((fetchEsiTables env).tables p.1).rows.length) := by
      intro p hp
      rw [List.mem_map] at hp
      obtain ⟨ec, hec, rfl⟩ := hp
      exact ⟨hec, by rw [tailN_length, List.length_map]⟩
    refine ⟨?_, rfl, ?_, ?_, ?_⟩
    · intro p hp
      rw [(hlen p hp).2]
      omega
    · intro p hp
      exact (hlen p hp).2
    · intro months2
      refine ⟨{ countries := ENTITY_CODES.map fun ec =>
          (ec, tailN months2 (((fetchEsiTables env).tables ec).rows.map
            fun row => row.2.getD
              (((fetchEsiTables env).tables ec).cols.indexOf
                (upperStr ec
                  ++ (if comp ∈ ESI_COMPONENTS then comp else ".ESI")))
              none)),
                dates := tailN months2 (((fetchEsiTables env).tables
                  (ENTITY_CODES.headD "")).rows.map Prod.fst) }, ?_⟩
      simp only [get_historical_values]
      rw [historySeries_eq_ok _ _ _ _ hcols]
      rfl
    · intro hall p hp
      obtain ⟨hmem, hl⟩ := hlen p hp
      rw [hl, tailN_length, List.length_map, hall p.1 hmem]

/-- C7 witness: well-formed environment (proper per-entity columns, equal
row counts): the call succeeds and the `eu` series length equals the
period-axis length. -/
theorem c7_witness :
    ([some 1] : List EV).length = historyC.dates.length :=
  (c7_history_windowing envC ".INDU" 6 historyC (by rfl)).2.2.2.2 (by decide)
    ("eu", [some 1]) (by decide)

end EsiUtil
